import Mathlib

/-!
Shallow embedding of `.github/scripts/update-rankings.mjs` from the
`irvine-pool-league` repository, together with theorems settling the
spec claims about it.

Strings are modelled as `List Char`.  The JavaScript regular expression
`/(\w+)\s*[>beat]\s*(\w+)/gi` is embedded as an explicit backtracking
matcher: `\w` is the ASCII word-character class, `\s` the whitespace
class, and `[>beat]` (with the `i` flag) the character class
consisting of `>`, `b`, `e`, `a`, `t` and their upper-case variants.
Repeated `exec` with the `g` flag is embedded as a left-to-right scan
producing all non-overlapping leftmost matches.
-/

/-- JavaScript `\w` (no unicode flag): ASCII letters, digits and underscore. -/
def isWordChar (c : Char) : Bool :=
  c.isAlpha || c.isDigit || c == '_'

/-- JavaScript `\s` restricted to the ASCII range (space, tab, line feed,
vertical tab, form feed, carriage return). -/
def isSpaceChar (c : Char) : Bool :=
  c == ' ' || c == '\t' || c == '\n' || c == '\x0b' || c == '\x0c' || c == '\r'

/-- The character class `[>beat]` of the source regex under the `i` flag:
any single one of the characters `>`, `b`, `e`, `a`, `t`, case-insensitively. -/
def isSepChar (c : Char) : Bool :=
  c == '>' || c == 'b' || c == 'e' || c == 'a' || c == 't' ||
  c == 'B' || c == 'E' || c == 'A' || c == 'T'

/-- Match `\s*[>beat]\s*(\w+)` at the head of `cs`; on success return the
second capture group and the remainder of the input.  Both `\s*` runs can be
taken greedily without backtracking because no separator-class character and
no word character is whitespace. -/
def matchSepTail (cs : List Char) : Option (List Char × List Char) :=
  match cs.dropWhile isSpaceChar with
  | [] => none
  | c :: cs2 =>
    if isSepChar c then
      let cs3 := cs2.dropWhile isSpaceChar
      let w2 := cs3.takeWhile isWordChar
      if w2.isEmpty then none else some (w2, cs3.dropWhile isWordChar)
    else none

/-- Backtracking over the greedy first capture group `(\w+)`: `racc` is the
reversed current candidate for the first group and `tail` the rest of the
input; shrink the candidate from the right until `\s*[>beat]\s*(\w+)`
matches what follows.  On success return (first group, second group,
remaining input). -/
def shrinkFirst : List Char → List Char → Option (List Char × List Char × List Char)
  | [], _ => none
  | c :: racc, tail =>
    match matchSepTail tail with
    | some (l, rest) => some ((c :: racc).reverse, l, rest)
    | none => shrinkFirst racc (c :: tail)

/-- Try to match the whole regex anchored at the head of `cs`. -/
def tryMatchAt (cs : List Char) : Option (List Char × List Char × List Char) :=
  shrinkFirst (cs.takeWhile isWordChar).reverse (cs.dropWhile isWordChar)

/-- Fuelled scan: repeated `exec` of the global regex, producing the capture
pairs of all non-overlapping leftmost matches.  Each step either advances one
character (no match at this position) or consumes a whole match, so fuel
`cs.length` is always sufficient (`scanMatchesF_congr` below). -/
def scanMatchesF : Nat → List Char → List (List Char × List Char)
  | 0, _ => []
  | _ + 1, [] => []
  | fuel + 1, c :: cs =>
    match tryMatchAt (c :: cs) with
    | some (w, l, rest) => (w, l) :: scanMatchesF fuel rest
    | none => scanMatchesF fuel cs

/-- All capture pairs `(winner, loser)` the source regex extracts from one
comment body. -/
def scanMatches (cs : List Char) : List (List Char × List Char) :=
  scanMatchesF cs.length cs

/-! ## Spec-intended extractor

The spec (§4.1, §9) states that the intended separator is a true
alternation: the literal character `>` or the case-insensitive literal word
`beat`, and flags the source's character class `[>beat]` as a likely defect.
The following definitions are modelled from the spec's words, for comparison
with the source's extractor above. -/

/-- Modelled from the spec: consume the separator as a true alternation,
either the single character `>` or the case-insensitive four-letter word
`beat`. -/
def specMatchSep : List Char → Option (List Char)
  | '>' :: rest => some rest
  | c1 :: c2 :: c3 :: c4 :: rest =>
    if c1.toLower == 'b' && c2.toLower == 'e' && c3.toLower == 'a' && c4.toLower == 't' then
      some rest
    else none
  | _ => none

/-- Modelled from the spec: match whitespace, the alternation separator,
whitespace, then a second token of word characters. -/
def specMatchSepTail (cs : List Char) : Option (List Char × List Char) :=
  match specMatchSep (cs.dropWhile isSpaceChar) with
  | none => none
  | some cs2 =>
    let cs3 := cs2.dropWhile isSpaceChar
    let w2 := cs3.takeWhile isWordChar
    if w2.isEmpty then none else some (w2, cs3.dropWhile isWordChar)

/-- Modelled from the spec: backtracking over the greedy first token, as in
`shrinkFirst` but with the alternation separator. -/
def specShrinkFirst : List Char → List Char → Option (List Char × List Char × List Char)
  | [], _ => none
  | c :: racc, tail =>
    match specMatchSepTail tail with
    | some (l, rest) => some ((c :: racc).reverse, l, rest)
    | none => specShrinkFirst racc (c :: tail)

/-- Modelled from the spec: try to match the intended pattern at the head of
`cs`. -/
def specTryMatchAt (cs : List Char) : Option (List Char × List Char × List Char) :=
  specShrinkFirst (cs.takeWhile isWordChar).reverse (cs.dropWhile isWordChar)

/-- Modelled from the spec: all non-overlapping occurrences of the intended
pattern, scanned left to right. -/
def specScanMatchesF : Nat → List Char → List (List Char × List Char)
  | 0, _ => []
  | _ + 1, [] => []
  | fuel + 1, c :: cs =>
    match specTryMatchAt (c :: cs) with
    | some (w, l, rest) => (w, l) :: specScanMatchesF fuel rest
    | none => specScanMatchesF fuel cs

/-- Modelled from the spec: the capture pairs of the intended pattern in one
comment body. -/
def specScanMatches (cs : List Char) : List (List Char × List Char) :=
  specScanMatchesF cs.length cs

/-! ## Data model and `getMatchResults` -/

/-- One issue comment, as consumed by `getMatchResults`: its body text and
its `created_at` timestamp. -/
structure Comment where
  body : List Char
  created_at : String
deriving DecidableEq

/-- One extracted match record `{winner, loser, date}`. -/
structure MatchRec where
  winner : List Char
  loser : List Char
  date : String
deriving DecidableEq

/-- JavaScript `String.prototype.trim` (ASCII whitespace). -/
def jsTrim (s : List Char) : List Char :=
  ((s.dropWhile isSpaceChar).reverse.dropWhile isSpaceChar).reverse

/-- The records pushed for one comment: one per regex match, with
`winner = match[1].trim()`, `loser = match[2].trim()` and
`date = comment.created_at`. -/
def extractFromComment (c : Comment) : List MatchRec :=
  (scanMatches c.body).map fun p =>
    { winner := jsTrim p.1, loser := jsTrim p.2, date := c.created_at }

/-- `getMatchResults`: the comment fetch is modelled by an `Except` value
(the collaborator boundary).  On success every comment contributes its
records in order; on error the `catch` block logs and returns the empty
list.  The second component is the error log. -/
def getMatchResults (fetched : Except String (List Comment)) :
    List MatchRec × List String :=
  match fetched with
  | Except.error e => ([], ["Error fetching comments: " ++ e])
  | Except.ok comments => (comments.flatMap extractFromComment, [])

/-! ## `calculateRankings` -/

/-- The `players` object: an association list from player name to
`{win, lose}`, in insertion order. -/
abbrev PlayersMap := List (List Char × Nat × Nat)

/-- `if (!players[n]) players[n] = { win: 0, lose: 0 }`. -/
def initPlayer (ps : PlayersMap) (n : List Char) : PlayersMap :=
  if ps.any fun e => e.1 == n then ps else ps ++ [(n, 0, 0)]

/-- `players[n].win++`. -/
def addWin (ps : PlayersMap) (n : List Char) : PlayersMap :=
  ps.map fun e => if e.1 == n then (e.1, e.2.1 + 1, e.2.2) else e

/-- `players[n].lose++`. -/
def addLose (ps : PlayersMap) (n : List Char) : PlayersMap :=
  ps.map fun e => if e.1 == n then (e.1, e.2.1, e.2.2 + 1) else e

/-- The body of the `matches.forEach` loop: initialize both players, then
increment the winner's wins and the loser's losses. -/
def applyMatch (ps : PlayersMap) (m : MatchRec) : PlayersMap :=
  addLose (addWin (initPlayer (initPlayer ps m.winner) m.loser) m.winner) m.loser

/-- The `players` object after the whole `forEach` loop. -/
def buildPlayers (ms : List MatchRec) : PlayersMap :=
  ms.foldl applyMatch []

/-- One entry of the `rankings` array:
`{player, win, lose, total, winRate}`.  `winRate` is modelled as an exact
rational. -/
structure PlayerStat where
  player : List Char
  win : Nat
  lose : Nat
  total : Nat
  winRate : ℚ
deriving DecidableEq

/-- The `Object.entries(players).map(...)` step. -/
def toStat (e : List Char × Nat × Nat) : PlayerStat :=
  { player := e.1, win := e.2.1, lose := e.2.2, total := e.2.1 + e.2.2,
    winRate := (e.2.1 : ℚ) / ((e.2.1 : ℚ) + (e.2.2 : ℚ)) }

/-- The sort comparator: `a` may be placed before `b` exactly when the
comparator `(a, b) => b.winRate - a.winRate || b.win - a.win` returns a
non-positive value. -/
def rankLE (a b : PlayerStat) : Bool :=
  if a.winRate ≠ b.winRate then decide (b.winRate < a.winRate)
  else decide (b.win ≤ a.win)

/-- `calculateRankings`: build the per-player tallies, convert to stats,
sort (JavaScript `Array.prototype.sort` is stable, modelled by
`List.mergeSort`), and return `{ rankings, matches }`. -/
def calculateRankings (ms : List MatchRec) : List PlayerStat × List MatchRec :=
  (((buildPlayers ms).map toStat).mergeSort rankLE, ms)

/-! ## `generateReadme` -/

/-- `Number.prototype.toFixed(1)` on a non-negative rational: round
`q` to the nearest tenth, ties upward, and print integer part, `.`, and one
digit. -/
def toFixed1 (q : ℚ) : String :=
  let n : Nat := (⌊q * 10 + 1 / 2⌋).toNat
  toString (n / 10) ++ "." ++ toString (n % 10)

/-- One row of the rankings table, for the player at 0-based `index`. -/
def rankingRow (index : Nat) (p : PlayerStat) : String :=
  "| " ++ toString (index + 1) ++ " | " ++ String.mk p.player ++ " | " ++
    toString p.win ++ " | " ++ toString p.lose ++ " | " ++ toString p.total ++
    " | " ++ toFixed1 (p.winRate * 100) ++ "% |"

/-- `rankings.map((player, index) => ...)`: all rows of the rankings table. -/
def rankingRows (rankings : List PlayerStat) : List String :=
  rankings.mapIdx fun i p => rankingRow i p

/-- `matches.slice(-10).reverse()`: the recent-matches view. -/
def matchHistory (ms : List MatchRec) : List MatchRec :=
  (ms.drop (ms.length - 10)).reverse

/-- One row of the recent-matches table.  `fmtDate` stands for
`d => new Date(d).toLocaleDateString()`, which is locale-dependent. -/
def historyRow (fmtDate : String → String) (m : MatchRec) : String :=
  "| " ++ fmtDate m.date ++ " | " ++ String.mk m.winner ++ " vs " ++
    String.mk m.loser ++ " | " ++ String.mk m.winner ++ " |"

/-- `generateReadme`: the full README text.  `now` stands for
`new Date().toLocaleString()`. -/
def generateReadme (fmtDate : String → String) (now : String)
    (rankings : List PlayerStat) (ms : List MatchRec) : String :=
  "# irvine-pool-league 🎱\n\n## Current Rankings\n\n" ++
  "| Rank | Player | Wins | Losses | Total | Win Rate |\n" ++
  "|------|--------|------|--------|-------|----------|\n" ++
  String.intercalate "\n" (rankingRows rankings) ++
  "\n\n## Recent Match Records\n\n| Date | Match | Winner |\n|------|------|--------|\n" ++
  String.intercalate "\n" ((matchHistory ms).map (historyRow fmtDate)) ++
  "\n\n## How to record match results\n\n" ++
  "1. Go to [Match Result Recording Issue](../../issues/1)\n" ++
  "2. Enter the match results in the comment, format: `PlayerA > PlayerB` or `PlayerA beat PlayerB`\n" ++
  "3. The system will automatically update the rankings\n\n### Example:\n" ++
  "- `Thomas > Raymond`\n- `Thomas beat Raymond`\n- `Jerry > Kyle`\n\n---\n" ++
  "*Rankings are updated automatically by GitHub Actions | Last updated: " ++ now ++ "*\n"

/-- `main` without the I/O shell: the fetch result comes in as an `Except`,
and the return value is the file write performed, `none` when the run skips
the update.  The run always terminates normally. -/
def mainWrites (fmtDate : String → String) (now : String)
    (fetched : Except String (List Comment)) : Option String :=
  let found := (getMatchResults fetched).1
  if found.length == 0 then none
  else some (generateReadme fmtDate now (calculateRankings found).1 found)

/-- The ranking order required by the spec: descending `winRate`, ties
broken by descending raw win count. -/
def rankOrdered (a b : PlayerStat) : Prop :=
  b.winRate < a.winRate ∨ (a.winRate = b.winRate ∧ b.win ≤ a.win)

/-- A name has an entry in the `players` object. -/
def hasPlayer (ps : PlayersMap) (n : List Char) : Prop :=
  ∃ e ∈ ps, e.1 = n

/-- The keys of the `players` object are distinct (object keys are unique). -/
def keysNodup (ps : PlayersMap) : Prop :=
  (ps.map Prod.fst).Nodup

/-- Total wins recorded in the `players` object. -/
def sumWins (ps : PlayersMap) : Nat :=
  (ps.map fun e => e.2.1).sum

/-- Total losses recorded in the `players` object. -/
def sumLoses (ps : PlayersMap) : Nat :=
  (ps.map fun e => e.2.2).sum

/-!
# Theorems

## Fuel adequacy for the extractor scan
-/

theorem scanMatchesF_nil (fuel : Nat) : scanMatchesF fuel [] = [] := by
  cases fuel <;> rfl

theorem matchSepTail_length {cs l rest : List Char}
    (h : matchSepTail cs = some (l, rest)) : rest.length < cs.length := by
  have h1 : (cs.dropWhile isSpaceChar).length ≤ cs.length :=
    (List.dropWhile_sublist _).length_le
  simp only [matchSepTail] at h
  split at h
  next hd => exact absurd h (by simp)
  next c cs2 hd =>
    split at h
    next hc =>
      split at h
      next he => exact absurd h (by simp)
      next he =>
        have h2 : (cs2.dropWhile isSpaceChar).length ≤ cs2.length :=
          (List.dropWhile_sublist _).length_le
        have h3 : ((cs2.dropWhile isSpaceChar).dropWhile isWordChar).length <
            (cs2.dropWhile isSpaceChar).length := by
          cases hw : cs2.dropWhile isSpaceChar with
          | nil => rw [hw] at he; simp at he
          | cons d ds =>
            rw [hw] at he
            by_cases hdw : isWordChar d
            · simp only [List.dropWhile_cons, hdw, if_true, List.length_cons]
              have : (ds.dropWhile isWordChar).length ≤ ds.length :=
                (List.dropWhile_sublist _).length_le
              omega
            · simp [List.takeWhile_cons, hdw] at he
        have hrest : rest = (cs2.dropWhile isSpaceChar).dropWhile isWordChar := by
          injection h with h'
          exact (congrArg Prod.snd h').symm
        subst hrest
        have h4 : cs2.length < cs.length := by
          have := congrArg List.length hd
          simp only [List.length_cons] at this
          omega
        omega
    next hc => exact absurd h (by simp)

theorem shrinkFirst_length {racc tail : List Char} {w l rest : List Char}
    (h : shrinkFirst racc tail = some (w, l, rest)) :
    rest.length < racc.length + tail.length := by
  induction racc generalizing tail with
  | nil => exact absurd h (by simp [shrinkFirst])
  | cons c racc ih =>
    unfold shrinkFirst at h
    cases hm : matchSepTail tail with
    | some p =>
      rw [hm] at h
      obtain ⟨l', rest'⟩ := p
      have := matchSepTail_length hm
      injection h with h'
      have hr : rest = rest' := by
        have := congrArg (fun q => q.2.2) h'
        simpa using this.symm
      subst hr
      simp [List.length_cons]
      omega
    | none =>
      rw [hm] at h
      have := ih h
      simp at this ⊢
      omega

theorem tryMatchAt_length {cs w l rest : List Char}
    (h : tryMatchAt cs = some (w, l, rest)) : rest.length < cs.length := by
  unfold tryMatchAt at h
  have h1 := shrinkFirst_length h
  have hlen := congrArg List.length
    (List.takeWhile_append_dropWhile (p := isWordChar) (l := cs))
  rw [List.length_append] at hlen
  rw [List.length_reverse] at h1
  omega

theorem scanMatchesF_congr (n : Nat) :
    ∀ (cs : List Char) (f1 f2 : Nat), cs.length ≤ n → cs.length ≤ f1 →
      cs.length ≤ f2 → scanMatchesF f1 cs = scanMatchesF f2 cs := by
  induction n with
  | zero =>
    intro cs f1 f2 hn _ _
    have : cs = [] := List.length_eq_zero.mp (Nat.le_zero.mp hn)
    subst this
    rw [scanMatchesF_nil, scanMatchesF_nil]
  | succ n ih =>
    intro cs f1 f2 hn h1 h2
    cases cs with
    | nil => rw [scanMatchesF_nil, scanMatchesF_nil]
    | cons c cs =>
      have hlen : (c :: cs).length = cs.length + 1 := by simp
      obtain ⟨g1, rfl⟩ : ∃ g1, f1 = g1 + 1 := by
        cases f1 with
        | zero => simp [hlen] at h1
        | succ g => exact ⟨g, rfl⟩
      obtain ⟨g2, rfl⟩ : ∃ g2, f2 = g2 + 1 := by
        cases f2 with
        | zero => simp [hlen] at h2
        | succ g => exact ⟨g, rfl⟩
      simp only [scanMatchesF]
      cases hm : tryMatchAt (c :: cs) with
      | some t =>
        obtain ⟨w, l, rest⟩ := t
        have hr := tryMatchAt_length hm
        simp only []
        rw [ih rest g1 g2 (by simp at hr hn ⊢; omega) (by simp at hr h1 ⊢; omega)
          (by simp at hr h2 ⊢; omega)]
      | none =>
        exact ih cs g1 g2 (by simp at hn ⊢; omega) (by simp at h1 ⊢; omega)
          (by simp at h2 ⊢; omega)

/-- Any fuel at least the length of the input computes the same scan as
`scanMatches`: the fuelled recursion never truncates. -/
theorem scanMatchesF_eq_scanMatches {cs : List Char} {fuel : Nat}
    (h : cs.length ≤ fuel) : scanMatchesF fuel cs = scanMatches cs :=
  scanMatchesF_congr fuel cs fuel cs.length h h (Nat.le_refl _)

example :
    scanMatches "Thomas > Raymond".toList = [("Thomas".toList, "Raymond".toList)] := by
  decide

example :
    scanMatches "Thomas beat Raymond".toList =
      [("Thomas".toList, "eat".toList), ("R".toList, "ymond".toList)] := by
  decide

example :
    specScanMatches "Thomas beat Raymond".toList =
      [("Thomas".toList, "Raymond".toList)] := by
  decide

/-! ## Claim theorems -/

/-- C1: the claim says the extractor matches `<token> <separator> <token>`
with the separator either the literal `>` or the case-insensitive word
`beat`.  The source regex instead uses the character class `[>beat]`, so on
the comment body `"Thomas beat Raymond"` the code produces the two records
`(Thomas, eat)` and `(R, ymond)`, while the spec-intended alternation
produces the single record `(Thomas, Raymond)`. -/
theorem c1_separator_class_not_alternation :
    getMatchResults (Except.ok [⟨"Thomas beat Raymond".toList, "t1"⟩]) =
      ([⟨"Thomas".toList, "eat".toList, "t1"⟩, ⟨"R".toList, "ymond".toList, "t1"⟩], []) ∧
    specScanMatches "Thomas beat Raymond".toList =
      [("Thomas".toList, "Raymond".toList)] := by
  constructor
  · decide
  · decide

/-- C4: the recent-matches view `matches.slice(-10).reverse()` used by
`generateReadme` has at most 10 entries, exactly `min 10 n` of them, and
consists of the last `min 10 n` input matches in reverse input order
(equivalently, the first 10 entries of the reversed input). -/
theorem c4_recent_matches (ms : List MatchRec) :
    (matchHistory ms).length ≤ 10 ∧
    (matchHistory ms).length = min 10 ms.length ∧
    matchHistory ms = ms.reverse.take 10 := by
  refine ⟨?_, ?_, ?_⟩
  · simp only [matchHistory, List.length_reverse, List.length_drop]
    omega
  · simp only [matchHistory, List.length_reverse, List.length_drop]
    omega
  · rw [List.take_reverse]
    rfl

/-- C5: when the extracted match list is empty, `main` skips the write
(`mainWrites` returns `none`, leaving any prior report unchanged) and the
run completes normally. -/
theorem c5_empty_skips_write (fmtDate : String → String) (now : String)
    (fetched : Except String (List Comment))
    (h : (getMatchResults fetched).1 = []) :
    mainWrites fmtDate now fetched = none := by
  simp [mainWrites, h]

theorem c5_empty_skips_write_witness :
    (getMatchResults (Except.ok [])).1 = [] ∧
    mainWrites id "now" (Except.ok []) = none :=
  ⟨rfl, c5_empty_skips_write id "now" (Except.ok []) rfl⟩

/-- C6: a fetch error is caught at the collaborator boundary: the
`catch` block logs it and `getMatchResults` returns the empty record list;
the error does not propagate, and the overall run still completes normally
(without writing). -/
theorem c6_fetch_error_caught (e : String) (fmtDate : String → String)
    (now : String) :
    getMatchResults (Except.error e) = ([], ["Error fetching comments: " ++ e]) ∧
    mainWrites fmtDate now (Except.error e) = none :=
  ⟨rfl, rfl⟩

/-- C7: `calculateRankings` is a pure function of the match list: the same
input always yields the same output, and the input match sequence is passed
through unchanged in the result. -/
theorem c7_aggregator_pure (ms : List MatchRec) :
    calculateRankings ms = calculateRankings ms ∧
    (calculateRankings ms).2 = ms :=
  ⟨rfl, rfl⟩

/-! ## The sort comparator -/

theorem rankLE_iff (a b : PlayerStat) : rankLE a b = true ↔ rankOrdered a b := by
  unfold rankLE rankOrdered
  by_cases h : a.winRate = b.winRate
  · simp [h]
  · simp [h]

theorem rankLE_total (a b : PlayerStat) : rankLE a b || rankLE b a := by
  simp only [Bool.or_eq_true, rankLE_iff]
  unfold rankOrdered
  rcases lt_trichotomy a.winRate b.winRate with h | h | h
  · exact Or.inr (Or.inl h)
  · rcases Nat.le_total b.win a.win with hw | hw
    · exact Or.inl (Or.inr ⟨h, hw⟩)
    · exact Or.inr (Or.inr ⟨h.symm, hw⟩)
  · exact Or.inl (Or.inl h)

theorem rankLE_trans (a b c : PlayerStat) (hab : rankLE a b) (hbc : rankLE b c) :
    rankLE a c := by
  rw [rankLE_iff] at hab hbc ⊢
  rcases hab with h1 | ⟨h1, hw1⟩ <;> rcases hbc with h2 | ⟨h2, hw2⟩
  · exact Or.inl (h2.trans h1)
  · exact Or.inl (h2 ▸ h1)
  · exact Or.inl (h1 ▸ h2)
  · exact Or.inr ⟨h1.trans h2, hw2.trans hw1⟩

/-- C2: the ranking produced by `calculateRankings` is sorted in descending
order of `winRate`, with ties broken by descending raw win count: no pair of
adjacent entries violates this ordering. -/
theorem c2_ranking_sorted (ms : List MatchRec) :
    List.Chain' rankOrdered (calculateRankings ms).1 := by
  have hp := @List.sorted_mergeSort PlayerStat rankLE
    (fun a b c hab hbc => rankLE_trans a b c hab hbc)
    (fun a b => rankLE_total a b)
    ((buildPlayers ms).map toStat)
  have hpw : List.Pairwise rankOrdered (calculateRankings ms).1 :=
    List.Pairwise.imp (fun hab => (rankLE_iff _ _).mp hab) hp
  exact hpw.chain'

/-! ## The players object: keys and membership -/

theorem mem_initPlayer {ps : PlayersMap} {n : List Char} {e : List Char × Nat × Nat}
    (h : e ∈ initPlayer ps n) : e ∈ ps ∨ e = (n, 0, 0) := by
  unfold initPlayer at h
  split at h
  · exact Or.inl h
  · rcases List.mem_append.mp h with h | h
    · exact Or.inl h
    · simp at h; exact Or.inr h

theorem addWin_map_fst (ps : PlayersMap) (n : List Char) :
    (addWin ps n).map Prod.fst = ps.map Prod.fst := by
  unfold addWin
  rw [List.map_map]
  apply List.map_congr_left
  intro e _
  simp only [Function.comp_apply]
  split <;> rfl

theorem addLose_map_fst (ps : PlayersMap) (n : List Char) :
    (addLose ps n).map Prod.fst = ps.map Prod.fst := by
  unfold addLose
  rw [List.map_map]
  apply List.map_congr_left
  intro e _
  simp only [Function.comp_apply]
  split <;> rfl

theorem hasPlayer_iff_mem_fst (ps : PlayersMap) (n : List Char) :
    hasPlayer ps n ↔ n ∈ ps.map Prod.fst := by
  simp [hasPlayer, List.mem_map]

theorem hasPlayer_addWin (ps : PlayersMap) (n x : List Char) :
    hasPlayer (addWin ps n) x ↔ hasPlayer ps x := by
  rw [hasPlayer_iff_mem_fst, hasPlayer_iff_mem_fst, addWin_map_fst]

theorem hasPlayer_addLose (ps : PlayersMap) (n x : List Char) :
    hasPlayer (addLose ps n) x ↔ hasPlayer ps x := by
  rw [hasPlayer_iff_mem_fst, hasPlayer_iff_mem_fst, addLose_map_fst]

theorem hasPlayer_initPlayer (ps : PlayersMap) (n x : List Char) :
    hasPlayer (initPlayer ps n) x ↔ hasPlayer ps x ∨ n = x := by
  unfold initPlayer
  split
  next hany =>
    simp only [List.any_eq_true, beq_iff_eq] at hany
    obtain ⟨e, he, hen⟩ := hany
    constructor
    · exact Or.inl
    · rintro (h | rfl)
      · exact h
      · exact ⟨e, he, hen⟩
  next hany =>
    constructor
    · rintro ⟨e, he, rfl⟩
      rcases List.mem_append.mp he with h | h
      · exact Or.inl ⟨e, h, rfl⟩
      · simp at h
        subst h
        exact Or.inr rfl
    · rintro (⟨e, he, rfl⟩ | rfl)
      · exact ⟨e, List.mem_append_left _ he, rfl⟩
      · exact ⟨(n, 0, 0), List.mem_append_right _ (by simp), rfl⟩

theorem hasPlayer_applyMatch (ps : PlayersMap) (m : MatchRec) (x : List Char) :
    hasPlayer (applyMatch ps m) x ↔
      hasPlayer ps x ∨ m.winner = x ∨ m.loser = x := by
  unfold applyMatch
  rw [hasPlayer_addLose, hasPlayer_addWin, hasPlayer_initPlayer, hasPlayer_initPlayer]
  tauto

theorem hasPlayer_foldl (ms : List MatchRec) (ps : PlayersMap) (n : List Char) :
    hasPlayer (ms.foldl applyMatch ps) n ↔
      hasPlayer ps n ∨ ∃ m ∈ ms, m.winner = n ∨ m.loser = n := by
  induction ms generalizing ps with
  | nil => simp
  | cons m ms ih =>
    rw [List.foldl_cons, ih, hasPlayer_applyMatch]
    simp only [List.mem_cons]
    constructor
    · rintro ((h | h | h) | ⟨m', hm', h⟩)
      · exact Or.inl h
      · exact Or.inr ⟨m, Or.inl rfl, Or.inl h⟩
      · exact Or.inr ⟨m, Or.inl rfl, Or.inr h⟩
      · exact Or.inr ⟨m', Or.inr hm', h⟩
    · rintro (h | ⟨m', hm' | hm', h⟩)
      · exact Or.inl (Or.inl h)
      · subst hm'; exact Or.inl (Or.inr h)
      · exact Or.inr ⟨m', hm', h⟩

theorem hasPlayer_buildPlayers (ms : List MatchRec) (n : List Char) :
    hasPlayer (buildPlayers ms) n ↔ ∃ m ∈ ms, m.winner = n ∨ m.loser = n := by
  unfold buildPlayers
  rw [hasPlayer_foldl]
  simp [hasPlayer]

/-! ## Every tallied player has played at least one match -/

theorem applyMatch_pos (ps : PlayersMap) (m : MatchRec)
    (h : ∀ e ∈ ps, 1 ≤ e.2.1 + e.2.2) :
    ∀ e ∈ applyMatch ps m, 1 ≤ e.2.1 + e.2.2 := by
  intro e he
  simp only [applyMatch, addLose, addWin, List.map_map, List.mem_map,
    Function.comp_apply] at he
  obtain ⟨e0, he0, rfl⟩ := he
  rcases mem_initPlayer he0 with h0 | h0
  · rcases mem_initPlayer h0 with h1 | h1
    · have := h e0 h1
      split <;> split <;> simp <;> omega
    · subst h1
      split <;> split <;> simp_all
  · subst h0
    split <;> split <;> simp_all

theorem buildPlayers_pos (ms : List MatchRec) :
    ∀ e ∈ buildPlayers ms, 1 ≤ e.2.1 + e.2.2 := by
  suffices h : ∀ ps, (∀ e ∈ ps, 1 ≤ e.2.1 + e.2.2) →
      ∀ e ∈ ms.foldl applyMatch ps, 1 ≤ e.2.1 + e.2.2 by
    exact h [] (by simp)
  induction ms with
  | nil => intro ps hps; simpa using hps
  | cons m ms ih =>
    intro ps hps
    rw [List.foldl_cons]
    exact ih (applyMatch ps m) (applyMatch_pos ps m hps)

/-- C3: every entry of the ranking satisfies `total = win + lose`,
`winRate = win / total`, `0 ≤ winRate ≤ 1` and `total ≠ 0`, and the set of
ranked players is exactly the set of names appearing as winner or loser of
some input match. -/
theorem c3_stat_invariants (ms : List MatchRec) :
    (∀ s ∈ (calculateRankings ms).1,
        s.total = s.win + s.lose ∧
        s.winRate = (s.win : ℚ) / (s.total : ℚ) ∧
        0 ≤ s.winRate ∧ s.winRate ≤ 1 ∧ s.total ≠ 0) ∧
    ∀ n : List Char,
      (∃ s ∈ (calculateRankings ms).1, s.player = n) ↔
        ∃ m ∈ ms, m.winner = n ∨ m.loser = n := by
  constructor
  · intro s hs
    simp only [calculateRankings, List.mem_mergeSort, List.mem_map] at hs
    obtain ⟨e, he, rfl⟩ := hs
    have hpos := buildPlayers_pos ms e he
    obtain ⟨n, w, l⟩ := e
    simp only at hpos
    refine ⟨rfl, ?_, ?_, ?_, ?_⟩
    · show (w : ℚ) / ((w : ℚ) + (l : ℚ)) = (w : ℚ) / ((w + l : ℕ) : ℚ)
      push_cast
      rfl
    · show (0 : ℚ) ≤ (w : ℚ) / ((w : ℚ) + (l : ℚ))
      positivity
    · show (w : ℚ) / ((w : ℚ) + (l : ℚ)) ≤ 1
      apply div_le_one_of_le₀
      · exact_mod_cast Nat.le_add_right w l
      · positivity
    · show w + l ≠ 0
      omega
  · intro n
    have : (∃ s ∈ (calculateRankings ms).1, s.player = n) ↔
        hasPlayer (buildPlayers ms) n := by
      simp only [calculateRankings, List.mem_mergeSort, List.mem_map, hasPlayer]
      constructor
      · rintro ⟨s, ⟨e, he, rfl⟩, hp⟩
        exact ⟨e, he, hp⟩
      · rintro ⟨e, he, hp⟩
        exact ⟨toStat e, ⟨e, he, rfl⟩, hp⟩
    rw [this, hasPlayer_buildPlayers]

/-! ## Win/loss totals -/

theorem keysNodup_initPlayer (ps : PlayersMap) (n : List Char)
    (h : keysNodup ps) : keysNodup (initPlayer ps n) := by
  unfold initPlayer
  split
  · exact h
  next hany =>
    have hn : n ∉ ps.map Prod.fst := by
      intro hmem
      rw [← hasPlayer_iff_mem_fst] at hmem
      obtain ⟨e, he, hen⟩ := hmem
      exact hany (List.any_eq_true.mpr ⟨e, he, by simpa using hen⟩)
    rw [keysNodup, List.map_append]
    refine List.Nodup.append h (by simp) ?_
    intro a ha hb
    simp at hb
    subst hb
    exact hn ha

theorem keysNodup_addWin (ps : PlayersMap) (n : List Char)
    (h : keysNodup ps) : keysNodup (addWin ps n) := by
  rw [keysNodup, addWin_map_fst]; exact h

theorem keysNodup_addLose (ps : PlayersMap) (n : List Char)
    (h : keysNodup ps) : keysNodup (addLose ps n) := by
  rw [keysNodup, addLose_map_fst]; exact h

theorem keysNodup_applyMatch (ps : PlayersMap) (m : MatchRec)
    (h : keysNodup ps) : keysNodup (applyMatch ps m) :=
  keysNodup_addLose _ _ (keysNodup_addWin _ _
    (keysNodup_initPlayer _ _ (keysNodup_initPlayer _ _ h)))

theorem hasPlayer_initPlayer_self (ps : PlayersMap) (n : List Char) :
    hasPlayer (initPlayer ps n) n := by
  rw [hasPlayer_initPlayer]
  exact Or.inr rfl

theorem sumWins_initPlayer (ps : PlayersMap) (n : List Char) :
    sumWins (initPlayer ps n) = sumWins ps := by
  unfold initPlayer
  split
  · rfl
  · simp [sumWins]

theorem sumLoses_initPlayer (ps : PlayersMap) (n : List Char) :
    sumLoses (initPlayer ps n) = sumLoses ps := by
  unfold initPlayer
  split
  · rfl
  · simp [sumLoses]

theorem sumWins_addLose (ps : PlayersMap) (n : List Char) :
    sumWins (addLose ps n) = sumWins ps := by
  unfold sumWins addLose
  rw [List.map_map]
  congr 1
  apply List.map_congr_left
  intro e _
  simp only [Function.comp_apply]
  split <;> rfl

theorem sumLoses_addWin (ps : PlayersMap) (n : List Char) :
    sumLoses (addWin ps n) = sumLoses ps := by
  unfold sumLoses addWin
  rw [List.map_map]
  congr 1
  apply List.map_congr_left
  intro e _
  simp only [Function.comp_apply]
  split <;> rfl

theorem addWin_not_has (ps : PlayersMap) (n : List Char)
    (h : ¬ hasPlayer ps n) : addWin ps n = ps := by
  induction ps with
  | nil => rfl
  | cons e ps ih =>
    have hne : e.1 ≠ n := by
      intro he
      exact h ⟨e, List.mem_cons_self e ps, he⟩
    have hps : ¬ hasPlayer ps n := by
      rintro ⟨x, hx, hxn⟩
      exact h ⟨x, List.mem_cons_of_mem e hx, hxn⟩
    have hcons : addWin (e :: ps) n =
        (if (e.1 == n) = true then (e.1, e.2.1 + 1, e.2.2) else e) :: addWin ps n := rfl
    rw [hcons, if_neg (by simpa using hne), ih hps]

theorem addLose_not_has (ps : PlayersMap) (n : List Char)
    (h : ¬ hasPlayer ps n) : addLose ps n = ps := by
  induction ps with
  | nil => rfl
  | cons e ps ih =>
    have hne : e.1 ≠ n := by
      intro he
      exact h ⟨e, List.mem_cons_self e ps, he⟩
    have hps : ¬ hasPlayer ps n := by
      rintro ⟨x, hx, hxn⟩
      exact h ⟨x, List.mem_cons_of_mem e hx, hxn⟩
    have hcons : addLose (e :: ps) n =
        (if (e.1 == n) = true then (e.1, e.2.1, e.2.2 + 1) else e) :: addLose ps n := rfl
    rw [hcons, if_neg (by simpa using hne), ih hps]

theorem sumWins_addWin (ps : PlayersMap) (n : List Char)
    (hnd : keysNodup ps) (h : hasPlayer ps n) :
    sumWins (addWin ps n) = sumWins ps + 1 := by
  induction ps with
  | nil => obtain ⟨e, he, _⟩ := h; cases he
  | cons e ps ih =>
    have hnd' : e.1 ∉ ps.map Prod.fst ∧ (ps.map Prod.fst).Nodup := by
      simpa [keysNodup, List.nodup_cons] using hnd
    have hcons : addWin (e :: ps) n =
        (if (e.1 == n) = true then (e.1, e.2.1 + 1, e.2.2) else e) :: addWin ps n := rfl
    by_cases hc : e.1 = n
    · have hps : ¬ hasPlayer ps n := by
        intro hp
        rw [hasPlayer_iff_mem_fst] at hp
        exact hnd'.1 (hc ▸ hp)
      rw [hcons, if_pos (by simpa using hc), addWin_not_has ps n hps]
      simp only [sumWins, List.map_cons, List.sum_cons]
      omega
    · have hpn : hasPlayer ps n := by
        obtain ⟨x, hx, hxn⟩ := h
        rcases List.mem_cons.mp hx with rfl | hx'
        · exact absurd hxn hc
        · exact ⟨x, hx', hxn⟩
      rw [hcons, if_neg (by simpa using hc)]
      simp only [sumWins, List.map_cons, List.sum_cons]
      have hih : sumWins (addWin ps n) = sumWins ps + 1 := ih hnd'.2 hpn
      simp only [sumWins] at hih
      omega

theorem sumLoses_addLose (ps : PlayersMap) (n : List Char)
    (hnd : keysNodup ps) (h : hasPlayer ps n) :
    sumLoses (addLose ps n) = sumLoses ps + 1 := by
  induction ps with
  | nil => obtain ⟨e, he, _⟩ := h; cases he
  | cons e ps ih =>
    have hnd' : e.1 ∉ ps.map Prod.fst ∧ (ps.map Prod.fst).Nodup := by
      simpa [keysNodup, List.nodup_cons] using hnd
    have hcons : addLose (e :: ps) n =
        (if (e.1 == n) = true then (e.1, e.2.1, e.2.2 + 1) else e) :: addLose ps n := rfl
    by_cases hc : e.1 = n
    · have hps : ¬ hasPlayer ps n := by
        intro hp
        rw [hasPlayer_iff_mem_fst] at hp
        exact hnd'.1 (hc ▸ hp)
      rw [hcons, if_pos (by simpa using hc), addLose_not_has ps n hps]
      simp only [sumLoses, List.map_cons, List.sum_cons]
      omega
    · have hpn : hasPlayer ps n := by
        obtain ⟨x, hx, hxn⟩ := h
        rcases List.mem_cons.mp hx with rfl | hx'
        · exact absurd hxn hc
        · exact ⟨x, hx', hxn⟩
      rw [hcons, if_neg (by simpa using hc)]
      simp only [sumLoses, List.map_cons, List.sum_cons]
      have hih : sumLoses (addLose ps n) = sumLoses ps + 1 := ih hnd'.2 hpn
      simp only [sumLoses] at hih
      omega

theorem sumWins_applyMatch (ps : PlayersMap) (m : MatchRec)
    (h : keysNodup ps) : sumWins (applyMatch ps m) = sumWins ps + 1 := by
  unfold applyMatch
  rw [sumWins_addLose]
  have h2 : keysNodup (initPlayer (initPlayer ps m.winner) m.loser) :=
    keysNodup_initPlayer _ _ (keysNodup_initPlayer _ _ h)
  have hw : hasPlayer (initPlayer (initPlayer ps m.winner) m.loser) m.winner := by
    rw [hasPlayer_initPlayer]
    exact Or.inl (hasPlayer_initPlayer_self ps m.winner)
  rw [sumWins_addWin _ _ h2 hw, sumWins_initPlayer, sumWins_initPlayer]

theorem sumLoses_applyMatch (ps : PlayersMap) (m : MatchRec)
    (h : keysNodup ps) : sumLoses (applyMatch ps m) = sumLoses ps + 1 := by
  unfold applyMatch
  have h2 : keysNodup (addWin (initPlayer (initPlayer ps m.winner) m.loser) m.winner) :=
    keysNodup_addWin _ _ (keysNodup_initPlayer _ _ (keysNodup_initPlayer _ _ h))
  have hl : hasPlayer (addWin (initPlayer (initPlayer ps m.winner) m.loser) m.winner) m.loser := by
    rw [hasPlayer_addWin]
    exact hasPlayer_initPlayer_self _ m.loser
  rw [sumLoses_addLose _ _ h2 hl, sumLoses_addWin, sumLoses_initPlayer, sumLoses_initPlayer]

theorem sums_buildPlayers (ms : List MatchRec) :
    sumWins (buildPlayers ms) = ms.length ∧
    sumLoses (buildPlayers ms) = ms.length := by
  suffices h : ∀ ps, keysNodup ps →
      sumWins (ms.foldl applyMatch ps) = sumWins ps + ms.length ∧
      sumLoses (ms.foldl applyMatch ps) = sumLoses ps + ms.length by
    have h0 := h [] (by simp [keysNodup])
    simpa [buildPlayers, sumWins, sumLoses] using h0
  induction ms with
  | nil => intro ps _; simp
  | cons m ms ih =>
    intro ps hps
    rw [List.foldl_cons]
    obtain ⟨h1, h2⟩ := ih (applyMatch ps m) (keysNodup_applyMatch ps m hps)
    rw [h1, h2, sumWins_applyMatch ps m hps, sumLoses_applyMatch ps m hps]
    constructor <;> simp <;> omega

/-- C9: each match contributes exactly one win and one loss, so the wins
summed over the ranking equal the number of input matches, and likewise the
losses. -/
theorem c9_sum_conservation (ms : List MatchRec) :
    ((calculateRankings ms).1.map fun s => s.win).sum = ms.length ∧
    ((calculateRankings ms).1.map fun s => s.lose).sum = ms.length := by
  have hperm : List.Perm (((buildPlayers ms).map toStat).mergeSort rankLE)
      ((buildPlayers ms).map toStat) := List.mergeSort_perm _ _
  have hw : ((calculateRankings ms).1.map fun s => s.win).sum =
      (((buildPlayers ms).map toStat).map fun s => s.win).sum :=
    (hperm.map _).sum_eq
  have hl : ((calculateRankings ms).1.map fun s => s.lose).sum =
      (((buildPlayers ms).map toStat).map fun s => s.lose).sum :=
    (hperm.map _).sum_eq
  rw [List.map_map] at hw hl
  have hw2 : ((buildPlayers ms).map ((fun s => s.win) ∘ toStat)).sum =
      sumWins (buildPlayers ms) := rfl
  have hl2 : ((buildPlayers ms).map ((fun s => s.lose) ∘ toStat)).sum =
      sumLoses (buildPlayers ms) := rfl
  obtain ⟨hbw, hbl⟩ := sums_buildPlayers ms
  exact ⟨by rw [hw, hw2, hbw], by rw [hl, hl2, hbl]⟩

/-! ## Shape of extracted records -/

theorem not_space_of_word {c : Char} (h : isWordChar c = true) :
    isSpaceChar c = false := by
  by_contra hs
  rw [Bool.not_eq_false] at hs
  simp only [isSpaceChar, Bool.or_eq_true, beq_iff_eq] at hs
  rcases hs with ((((rfl | rfl) | rfl) | rfl) | rfl) | rfl <;>
    exact absurd h (by decide)

theorem dropWhile_all_not {p : Char → Bool} {l : List Char}
    (h : ∀ c ∈ l, p c = false) : l.dropWhile p = l := by
  cases l with
  | nil => rfl
  | cons c cs => simp [List.dropWhile_cons, h c (List.mem_cons_self c cs)]

theorem jsTrim_word {l : List Char} (h : l.all isWordChar) : jsTrim l = l := by
  have h1 : ∀ c ∈ l, isSpaceChar c = false := fun c hc =>
    not_space_of_word (List.all_eq_true.mp h c hc)
  unfold jsTrim
  rw [dropWhile_all_not h1,
    dropWhile_all_not (fun c hc => h1 c (List.mem_reverse.mp hc))]
  exact List.reverse_reverse l

theorem matchSepTail_shape {cs l rest : List Char}
    (h : matchSepTail cs = some (l, rest)) : l ≠ [] ∧ l.all isWordChar := by
  simp only [matchSepTail] at h
  split at h
  next => exact absurd h (by simp)
  next c cs2 hd =>
    split at h
    next hc =>
      split at h
      next he => exact absurd h (by simp)
      next he =>
        injection h with h'
        have hl : l = (cs2.dropWhile isSpaceChar).takeWhile isWordChar :=
          (congrArg Prod.fst h').symm
        subst hl
        refine ⟨?_, ?_⟩
        · intro hnil
          exact he (by simp [hnil])
        · rw [List.all_eq_true]
          intro x hx
          exact List.mem_takeWhile_imp hx
    next => exact absurd h (by simp)

theorem shrinkFirst_shape {racc tail w l rest : List Char}
    (h : shrinkFirst racc tail = some (w, l, rest))
    (hracc : ∀ c ∈ racc, isWordChar c = true) :
    w ≠ [] ∧ w.all isWordChar ∧ l ≠ [] ∧ l.all isWordChar := by
  induction racc generalizing tail with
  | nil => exact absurd h (by simp [shrinkFirst])
  | cons c racc ih =>
    unfold shrinkFirst at h
    cases hm : matchSepTail tail with
    | some p =>
      rw [hm] at h
      obtain ⟨l', rest'⟩ := p
      injection h with h'
      rw [Prod.mk.injEq, Prod.mk.injEq] at h'
      obtain ⟨hw, hl, -⟩ := h'
      subst hw
      subst hl
      obtain ⟨hml, hml2⟩ := matchSepTail_shape hm
      refine ⟨by simp, ?_, hml, hml2⟩
      rw [List.all_eq_true]
      intro x hx
      exact hracc x (List.mem_reverse.mp hx)
    | none =>
      rw [hm] at h
      exact ih h (fun x hx => hracc x (List.mem_cons_of_mem c hx))

theorem tryMatchAt_shape {cs w l rest : List Char}
    (h : tryMatchAt cs = some (w, l, rest)) :
    w ≠ [] ∧ w.all isWordChar ∧ l ≠ [] ∧ l.all isWordChar := by
  unfold tryMatchAt at h
  exact shrinkFirst_shape h
    (fun c hc => List.mem_takeWhile_imp (List.mem_reverse.mp hc))

theorem scanMatchesF_shape (fuel : Nat) :
    ∀ (cs w l : List Char), (w, l) ∈ scanMatchesF fuel cs →
      w ≠ [] ∧ w.all isWordChar ∧ l ≠ [] ∧ l.all isWordChar := by
  induction fuel with
  | zero => intro cs w l h; exact absurd h (by simp [scanMatchesF])
  | succ fuel ih =>
    intro cs w l h
    cases cs with
    | nil => exact absurd h (by simp [scanMatchesF])
    | cons c cs =>
      cases hm : tryMatchAt (c :: cs) with
      | some t =>
        obtain ⟨w', l', rest⟩ := t
        simp only [scanMatchesF, hm] at h
        rcases List.mem_cons.mp h with heq | h'
        · rw [Prod.mk.injEq] at heq
          obtain ⟨rfl, rfl⟩ := heq
          exact tryMatchAt_shape hm
        · exact ih rest w l h'
      | none =>
        simp only [scanMatchesF, hm] at h
        exact ih cs w l h

/-- C10: every record the extractor produces has a non-empty winner and a
non-empty loser made solely of word characters, the `trim()` applied to them
is a no-op, and the record's date is the `created_at` timestamp of the
comment whose body the pair was extracted from. -/
theorem c10_record_wellformed (comments : List Comment) (r : MatchRec)
    (hr : r ∈ (getMatchResults (Except.ok comments)).1) :
    r.winner ≠ [] ∧ r.winner.all isWordChar ∧ jsTrim r.winner = r.winner ∧
    r.loser ≠ [] ∧ r.loser.all isWordChar ∧ jsTrim r.loser = r.loser ∧
    ∃ c ∈ comments, r.date = c.created_at ∧
      (r.winner, r.loser) ∈ scanMatches c.body := by
  simp only [getMatchResults, List.mem_flatMap] at hr
  obtain ⟨c, hc, hrc⟩ := hr
  simp only [extractFromComment, List.mem_map] at hrc
  obtain ⟨⟨w, l⟩, hwl, rfl⟩ := hrc
  obtain ⟨hw1, hw2, hl1, hl2⟩ := scanMatchesF_shape _ _ _ _ hwl
  have hjw : jsTrim w = w := jsTrim_word hw2
  have hjl : jsTrim l = l := jsTrim_word hl2
  refine ⟨?_, ?_, ?_, ?_, ?_, ?_, c, hc, rfl, ?_⟩
  · show jsTrim w ≠ []
    rw [hjw]; exact hw1
  · show (jsTrim w).all isWordChar
    rw [hjw]; exact hw2
  · show jsTrim (jsTrim w) = jsTrim w
    rw [hjw]; exact hjw
  · show jsTrim l ≠ []
    rw [hjl]; exact hl1
  · show (jsTrim l).all isWordChar
    rw [hjl]; exact hl2
  · show jsTrim (jsTrim l) = jsTrim l
    rw [hjl]; exact hjl
  · show (jsTrim w, jsTrim l) ∈ scanMatches c.body
    rw [hjw, hjl]; exact hwl

theorem c10_record_wellformed_witness :
    ((⟨"Thomas".toList, "eat".toList, "t1"⟩ : MatchRec) ∈
      (getMatchResults (Except.ok
        [(⟨"Thomas beat Raymond".toList, "t1"⟩ : Comment)])).1) ∧
    ("Thomas".toList ≠ ([] : List Char) ∧ "Thomas".toList.all isWordChar ∧
      jsTrim "Thomas".toList = "Thomas".toList ∧
      "eat".toList ≠ ([] : List Char) ∧ "eat".toList.all isWordChar ∧
      jsTrim "eat".toList = "eat".toList ∧
      ∃ c ∈ [(⟨"Thomas beat Raymond".toList, "t1"⟩ : Comment)],
        "t1" = c.created_at ∧
        ("Thomas".toList, "eat".toList) ∈ scanMatches c.body) :=
  ⟨by decide,
    c10_record_wellformed [(⟨"Thomas beat Raymond".toList, "t1"⟩ : Comment)]
      ⟨"Thomas".toList, "eat".toList, "t1"⟩ (by decide)⟩

/-! ## Rendering of ranking rows -/

theorem toString_digit {k : Nat} (h : k < 10) :
    (toString k).length = 1 ∧ (toString k).data.all Char.isDigit := by
  interval_cases k <;> exact ⟨by decide, by decide⟩

/-- C8: the rendered ranking row for 0-based index `i` carries the 1-based
position `i + 1` and the cells player, wins, losses, total, win rate in that
order, and the win-rate cell is a percentage with exactly one digit after
the decimal point. -/
theorem c8_row_format (rs : List PlayerStat) (i : Nat)
    (h : i < rs.length) (h2 : i < (rankingRows rs).length) :
    (rankingRows rs).get ⟨i, h2⟩ =
      "| " ++ toString (i + 1) ++ " | " ++ String.mk (rs.get ⟨i, h⟩).player ++
      " | " ++ toString (rs.get ⟨i, h⟩).win ++ " | " ++
      toString (rs.get ⟨i, h⟩).lose ++ " | " ++
      toString (rs.get ⟨i, h⟩).total ++ " | " ++
      toFixed1 ((rs.get ⟨i, h⟩).winRate * 100) ++ "% |" ∧
    ∃ a b : String, toFixed1 ((rs.get ⟨i, h⟩).winRate * 100) = a ++ "." ++ b ∧
      b.length = 1 ∧ b.data.all Char.isDigit := by
  constructor
  · simp only [rankingRows, List.get_eq_getElem, List.getElem_mapIdx]
    rfl
  · refine ⟨toString ((⌊(rs.get ⟨i, h⟩).winRate * 100 * 10 + 1 / 2⌋).toNat / 10),
      toString ((⌊(rs.get ⟨i, h⟩).winRate * 100 * 10 + 1 / 2⌋).toNat % 10),
      rfl, ?_⟩
    exact toString_digit (Nat.mod_lt _ (by norm_num))

theorem c8_row_format_witness :
    (0 : Nat) < ([(⟨"Kyle".toList, 7, 9, 16, (7 : ℚ) / 16⟩ : PlayerStat)]).length ∧
    (rankingRows [(⟨"Kyle".toList, 7, 9, 16, (7 : ℚ) / 16⟩ : PlayerStat)]).get
        ⟨0, by decide⟩ = "| 1 | Kyle | 7 | 9 | 16 | 43.8% |" ∧
    ∃ a b : String,
      toFixed1 ((7 : ℚ) / 16 * 100) = a ++ "." ++ b ∧
      b.length = 1 ∧ b.data.all Char.isDigit := by
  have ht : toFixed1 ((7 : ℚ) / 16 * 100) = "43.8" := by
    have hfl : (⌊(7 : ℚ) / 16 * 100 * 10 + 1 / 2⌋ : ℤ) = 438 := by norm_num
    simp only [toFixed1]
    rw [hfl]
    decide
  have h := c8_row_format [⟨"Kyle".toList, 7, 9, 16, (7 : ℚ) / 16⟩] 0
    (by decide) (by decide)
  refine ⟨by decide, h.1.trans ?_, h.2⟩
  show "| " ++ toString (0 + 1) ++ " | " ++ String.mk "Kyle".toList ++ " | " ++
      toString (7 : Nat) ++ " | " ++ toString (9 : Nat) ++ " | " ++
      toString (16 : Nat) ++ " | " ++ toFixed1 ((7 : ℚ) / 16 * 100) ++ "% |" =
    "| 1 | Kyle | 7 | 9 | 16 | 43.8% |"
  rw [ht]
  decide
